import Mathlib

/-!
# Task store and cache-coordinating handlers

A shallow embedding of the Go task server: the in-memory `TaskStore`
(`internal/store/taskstore.go`, duplicated in `main.go`) and the five HTTP
handlers of `TaskResource` (`internal/api/handlers.go`, duplicated in
`main.go`) together with the Redis cache adapter they talk to.

Modelling conventions.

* Go's `int` is the 64-bit signed integer of the 64-bit platforms: an `Int`
  between `minInt` and `maxInt`, with arithmetic reduced by `wrapInt`, that
  is, modulo `2 ^ 64`.  The only arithmetic in the program is `ts.nextID++`.
* A Go `map[int]Task` is modelled by an association list; a lookup takes the
  first entry with the key, an assignment replaces that entry or appends one,
  `delete` drops every entry with the key.
* The mutex of the store is not modelled: every method body is one atomic
  state transformer.
* The handlers' `fmt.Printf` diagnostics on standard output are not modelled.
-/

namespace GoHw17

/-! ## Data model -/

/-- The record type `Task` (`main.go`, lines 36-40). -/
structure Task where
  ID : Int
  Title : String
  Completed : Bool
  deriving DecidableEq, Repr

/-- Go's zero value of `Task`, returned by a failed map lookup. -/
def Task.zero : Task := ⟨0, "", false⟩

/-- The largest Go `int`, `math.MaxInt64`. -/
def maxInt : Int := 2 ^ 63 - 1

/-- The smallest Go `int`, `math.MinInt64`. -/
def minInt : Int := - 2 ^ 63

/-- The Go `int` an exact result wraps to: its residue modulo `2 ^ 64` in the
range from `minInt` to `maxInt`. -/
def wrapInt (x : Int) : Int := (x + 2 ^ 63) % 2 ^ 64 - 2 ^ 63

/-- A Go `map[int]Task`. -/
abbrev TaskMap := List (Int × Task)

/-- The map read `v, ok := m[k]`. -/
def TaskMap.lookup : TaskMap → Int → Option Task
  | [], _ => none
  | (k', v) :: rest, k => if k' = k then some v else TaskMap.lookup rest k

/-- The map assignment `m[k] = v`. -/
def TaskMap.assign : TaskMap → Int → Task → TaskMap
  | [], k, v => [(k, v)]
  | (k', v') :: rest, k, v =>
    if k' = k then (k, v) :: rest else (k', v') :: TaskMap.assign rest k v

/-- The built-in `delete(m, k)`. -/
def TaskMap.remove : TaskMap → Int → TaskMap
  | [], _ => []
  | (k', v) :: rest, k =>
    if k' = k then TaskMap.remove rest k else (k', v) :: TaskMap.remove rest k

/-- The struct `TaskStore` without its embedded mutex. -/
structure TaskStore where
  tasks : TaskMap
  nextID : Int
  deriving DecidableEq, Repr

/-- The constructor `NewTaskStore`: an empty map and `nextID = 1`. -/
def NewTaskStore : TaskStore := ⟨[], 1⟩

namespace TaskStore

/-- The method `Add`: returns the assigned identifier and the new store;
`ts.nextID++` wraps from `maxInt` to `minInt`. -/
def Add (ts : TaskStore) (task : Task) : Int × TaskStore :=
  let task := { task with ID := ts.nextID }
  (task.ID, { tasks := ts.tasks.assign task.ID task, nextID := wrapInt (ts.nextID + 1) })

/-- The method `Get`: the record (or the zero value) and the `ok` flag. -/
def Get (ts : TaskStore) (id : Int) : Task × Bool :=
  match ts.tasks.lookup id with
  | some task => (task, true)
  | none => (Task.zero, false)

/-- The method `Update`: the success flag and the new store. -/
def Update (ts : TaskStore) (id : Int) (task : Task) : Bool × TaskStore :=
  match ts.tasks.lookup id with
  | none => (false, ts)
  | some _ =>
    let task := { task with ID := id }
    (true, { ts with tasks := ts.tasks.assign id task })

/-- The method `Delete`: the success flag and the new store. -/
def Delete (ts : TaskStore) (id : Int) : Bool × TaskStore :=
  match ts.tasks.lookup id with
  | none => (false, ts)
  | some _ => (true, { ts with tasks := ts.tasks.remove id })

/-- The method `GetAll`.  Go leaves the order of `range` over a map
unspecified; `order` is the order in which this call visits the entries. -/
def GetAll (ts : TaskStore) (order : TaskMap → TaskMap) : List Task :=
  (order ts.tasks).map Prod.snd

end TaskStore

/-! ## Sequences of store calls -/

/-- One call on a store. -/
inductive Call where
  | add (task : Task)
  | update (id : Int) (task : Task)
  | delete (id : Int)
  | get (id : Int)
  | getAll
  deriving DecidableEq, Repr

/-- The store after one call. -/
def Call.apply (ts : TaskStore) : Call → TaskStore
  | .add task => (ts.Add task).2
  | .update id task => (ts.Update id task).2
  | .delete id => (ts.Delete id).2
  | .get _ => ts
  | .getAll => ts

/-- The store after a sequence of calls, made in list order. -/
def run (ts : TaskStore) : List Call → TaskStore
  | [] => ts
  | c :: cs => run (c.apply ts) cs

/-- The identifiers returned by the `Add` calls of a sequence, in call order. -/
def issued (ts : TaskStore) : List Call → List Int
  | [] => []
  | .add task :: cs => (ts.Add task).1 :: issued (ts.Add task).2 cs
  | c :: cs => issued (c.apply ts) cs

/-- The number of `Add` calls of a sequence. -/
def addCount : List Call → Nat
  | [] => 0
  | .add _ :: cs => addCount cs + 1
  | _ :: cs => addCount cs

/-- A sequence of `n` calls of `Add`. -/
def manyAdds (n : Nat) : List Call :=
  List.replicate n (Call.add Task.zero)

/-! ## The cache adapter -/

/-- A value held by the cache with the expiration given to `Set`, in seconds.
Time is not modelled: an entry stays until it is overwritten or deleted. -/
structure CacheEntry where
  value : String
  ttl : Nat
  deriving DecidableEq, Repr

/-- The struct `RedisCache` with the Redis server behind its client.  With
`online` the server answers and behaves as a key-value map; without it every
operation returns an error. -/
structure RedisCache where
  online : Bool
  entries : List (String × CacheEntry)
  deriving DecidableEq, Repr

/-- The entries left when a key is dropped. -/
def cacheDrop : List (String × CacheEntry) → String → List (String × CacheEntry)
  | [], _ => []
  | (k, e) :: rest, key =>
    if k = key then cacheDrop rest key else (k, e) :: cacheDrop rest key

/-- The first entry stored under a key. -/
def cacheFind : List (String × CacheEntry) → String → Option CacheEntry
  | [], _ => none
  | (k, e) :: rest, key => if k = key then some e else cacheFind rest key

namespace RedisCache

/-- The method `Get`: `some v` when `err == nil`; `none` when the call returns
an error, which go-redis does for an absent key (`redis.Nil`) as well as for a
failed call. -/
def Get (rc : RedisCache) (key : String) : Option String :=
  if rc.online then (cacheFind rc.entries key).map CacheEntry.value else none

/-- The method `Set`: whether `err == nil`, and the cache afterwards. -/
def Set (rc : RedisCache) (key value : String) (expiration : Nat) : Bool × RedisCache :=
  if rc.online then
    (true, { rc with entries := (key, ⟨value, expiration⟩) :: cacheDrop rc.entries key })
  else (false, rc)

/-- The method `Del`: whether `err == nil`, and the cache afterwards. -/
def Del (rc : RedisCache) (key : String) : Bool × RedisCache :=
  if rc.online then
    (true, { rc with entries := cacheDrop rc.entries key })
  else (false, rc)

end RedisCache

/-! ## HTTP requests and responses -/

/-- What a handler reads of `*http.Request`: `r.URL.Path` and `r.Body`. -/
structure Request where
  path : String
  body : String
  deriving DecidableEq, Repr

/-- What a handler writes to `http.ResponseWriter`: the status code (200 when
the handler writes a body or returns without `WriteHeader`), the header fields
it sets, and the body. -/
structure Response where
  status : Nat
  header : List (String × String)
  body : String
  deriving DecidableEq, Repr

/-- Library functions the handlers call and the source does not contain:
`strconv.Atoi` (`none` on an error), `json.NewDecoder(r.Body).Decode(&task)`
on a zero `Task` (the error text on a failure), and `json.Marshal` on a `Task`
and on a `[]Task`, which cannot fail on these types. -/
structure Lib where
  Atoi : String → Option Int
  Decode : String → Except String Task
  Marshal : Task → String
  MarshalList : List Task → String

/-- The pieces of a character list between the `/` characters. -/
def splitSlash : List Char → List (List Char)
  | [] => [[]]
  | c :: cs =>
    if c = '/' then [] :: splitSlash cs
    else
      match splitSlash cs with
      | [] => [[c]]
      | p :: ps => (c :: p) :: ps

/-- The call `strings.Split(path, "/")`. -/
def Split (path : String) : List String :=
  (splitSlash path.data).map String.mk

/-- The call `fmt.Sprintf("task:%d", id)`. -/
def cacheKey (id : Int) : String :=
  "task:" ++ toString id

/-- The call `http.Error(w, msg, code)`. -/
def httpError (msg : String) (code : Nat) : Response :=
  ⟨code, [("Content-Type", "text/plain; charset=utf-8"),
          ("X-Content-Type-Options", "nosniff")], msg ++ "\n"⟩

/-- The call `http.NotFound(w, r)`. -/
def httpNotFound : Response :=
  httpError "404 page not found" 404

/-- A body written with `Content-Type: application/json` and no explicit
status. -/
def jsonOK (body : String) : Response :=
  ⟨200, [("Content-Type", "application/json")], body⟩

/-- The effect of one handler call: the response and the store and cache it
leaves. -/
structure Outcome where
  resp : Response
  store : TaskStore
  cache : RedisCache
  deriving DecidableEq, Repr

/-! ## The handlers of `TaskResource` -/

namespace TaskResource

/-- The handler `GetAll`; `json.NewEncoder(w).Encode` writes the marshalled
value followed by a newline. -/
def GetAll (lib : Lib) (order : TaskMap → TaskMap) (s : TaskStore) (c : RedisCache)
    (_r : Request) : Outcome :=
  match c.Get "all_tasks" with
  | some cachedTasks => ⟨jsonOK cachedTasks, s, c⟩
  | none =>
    let tasks := s.GetAll order
    let c := (c.Set "all_tasks" (lib.MarshalList tasks) (5 * 60)).2
    ⟨jsonOK (lib.MarshalList tasks ++ "\n"), s, c⟩

/-- The handler `CreateOne` of `internal/api/handlers.go`, which does not
touch the cache. -/
def CreateOne (lib : Lib) (s : TaskStore) (c : RedisCache) (r : Request) : Outcome :=
  match lib.Decode r.body with
  | .error _ => ⟨⟨400, [], ""⟩, s, c⟩
  | .ok task =>
    let added := s.Add task
    let task := { task with ID := added.1 }
    ⟨⟨200, [], lib.Marshal task ++ "\n"⟩, added.2, c⟩

/-- The handler `GetOne`. -/
def GetOne (lib : Lib) (s : TaskStore) (c : RedisCache) (r : Request) : Outcome :=
  match Split r.path with
  | [_, _, idStr] =>
    match lib.Atoi idStr with
    | none => ⟨httpError "Invalid ID" 400, s, c⟩
    | some id =>
      match c.Get (cacheKey id) with
      | some cachedTask => ⟨jsonOK cachedTask, s, c⟩
      | none =>
        match s.Get id with
        | (_, false) => ⟨httpNotFound, s, c⟩
        | (task, true) =>
          let c := (c.Set (cacheKey id) (lib.Marshal task) 3600).2
          ⟨jsonOK (lib.Marshal task), s, c⟩
  | _ => ⟨httpError "Invalid URL" 400, s, c⟩

/-- The handler `UpdateOne`. -/
def UpdateOne (lib : Lib) (s : TaskStore) (c : RedisCache) (r : Request) : Outcome :=
  match Split r.path with
  | [_, _, idStr] =>
    match lib.Atoi idStr with
    | none => ⟨httpError "Invalid ID" 400, s, c⟩
    | some id =>
      match lib.Decode r.body with
      | .error e => ⟨httpError e 400, s, c⟩
      | .ok task =>
        match s.Update id task with
        | (false, _) => ⟨httpNotFound, s, c⟩
        | (true, s) => ⟨⟨200, [], ""⟩, s, (c.Del (cacheKey id)).2⟩
  | _ => ⟨httpError "Invalid URL" 400, s, c⟩

/-- The handler `DeleteOne`. -/
def DeleteOne (lib : Lib) (s : TaskStore) (c : RedisCache) (r : Request) : Outcome :=
  match Split r.path with
  | [_, _, idStr] =>
    match lib.Atoi idStr with
    | none => ⟨httpError "Invalid ID" 400, s, c⟩
    | some id =>
      match s.Delete id with
      | (false, _) => ⟨httpNotFound, s, c⟩
      | (true, s) => ⟨⟨200, [], ""⟩, s, (c.Del (cacheKey id)).2⟩
  | _ => ⟨httpError "Invalid URL" 400, s, c⟩

/-- The handler `CreateOne` of `main.go`, which also caches the new record
for an hour. -/
def CreateOneMain (lib : Lib) (s : TaskStore) (c : RedisCache) (r : Request) : Outcome :=
  match lib.Decode r.body with
  | .error _ => ⟨⟨400, [], ""⟩, s, c⟩
  | .ok task =>
    let added := s.Add task
    let task := { task with ID := added.1 }
    let c := (c.Set (cacheKey task.ID) (lib.Marshal task) 3600).2
    ⟨⟨200, [], lib.Marshal task ++ "\n"⟩, added.2, c⟩

end TaskResource

/-- The five routes registered on the mux in `main`. -/
inductive Route where
  | GetAll
  | CreateOne
  | GetOne
  | UpdateOne
  | DeleteOne
  deriving DecidableEq, Repr

/-- The handler behind a route.  `mainPkg` selects the program of `main.go`,
whose `CreateOne` differs from the one of `internal/api`. -/
def Route.serve (lib : Lib) (order : TaskMap → TaskMap) (mainPkg : Bool) :
    Route → TaskStore → RedisCache → Request → Outcome
  | .GetAll => TaskResource.GetAll lib order
  | .CreateOne => if mainPkg then TaskResource.CreateOneMain lib else TaskResource.CreateOne lib
  | .GetOne => TaskResource.GetOne lib
  | .UpdateOne => TaskResource.UpdateOne lib
  | .DeleteOne => TaskResource.DeleteOne lib

/-- The cache key whose value a route would return without consulting the
store: `all_tasks` for `GetAll`, `task:<id>` for a `GetOne` whose path names
an identifier, none for the other routes. -/
def Route.cacheRead (lib : Lib) : Route → Request → Option String
  | .GetAll, _ => some "all_tasks"
  | .GetOne, r =>
    match Split r.path with
    | [_, _, idStr] => (lib.Atoi idStr).map cacheKey
    | _ => none
  | _, _ => none

/-! ## A concrete library instance, for evaluating the handlers -/

/-- The value of a string of decimal digits. -/
def digitsValue : List Char → Nat → Option Nat
  | [], acc => some acc
  | d :: ds, acc =>
    if '0' ≤ d ∧ d ≤ '9' then digitsValue ds (10 * acc + (d.toNat - '0'.toNat)) else none

/-- A decimal reader in the manner of `strconv.Atoi`: an optional sign and at
least one digit. -/
def sampleAtoi (s : String) : Option Int :=
  match s.data with
  | [] => none
  | '-' :: d :: ds => (digitsValue (d :: ds) 0).map (fun n => - (n : Int))
  | '+' :: d :: ds => (digitsValue (d :: ds) 0).map (fun n => (n : Int))
  | '-' :: [] => none
  | '+' :: [] => none
  | ds => (digitsValue ds 0).map (fun n => (n : Int))

/-- A toy wire format for a task body: `title` alone, or `title` followed by
`!` for a completed task; the empty body is malformed. -/
def sampleDecode (body : String) : Except String Task :=
  match body.data.reverse with
  | [] => .error "EOF"
  | '!' :: rest => .ok ⟨0, String.mk rest.reverse, true⟩
  | _ => .ok ⟨0, body, false⟩

/-- A rendering of a task as a JSON object, without string escaping. -/
def sampleMarshal (t : Task) : String :=
  "\x7b\"id\":" ++ toString t.ID ++ ",\"title\":\"" ++ t.Title ++ "\",\"completed\":"
    ++ (if t.Completed then "true" else "false") ++ "\x7d"

/-- A rendering of a task list as a JSON array. -/
def sampleMarshalList (ts : List Task) : String :=
  "[" ++ ",".intercalate (ts.map sampleMarshal) ++ "]"

/-- The sample library. -/
def sampleLib : Lib :=
  ⟨sampleAtoi, sampleDecode, sampleMarshal, sampleMarshalList⟩

/-- A store holding one task, `milk`, under identifier 1. -/
def sampleStore : TaskStore :=
  (NewTaskStore.Add ⟨0, "milk", false⟩).2

/-- A working cache holding an outdated rendering of task 1. -/
def sampleCache : RedisCache :=
  ⟨true, [("task:1", ⟨"outdated", 3600⟩)]⟩

/-- A working cache holding the marshalled task 1 of `sampleStore`. -/
def coherentCache : RedisCache :=
  ⟨true, [("task:1", ⟨sampleMarshal ⟨1, "milk", false⟩, 3600⟩)]⟩

/-- The outcome of `GET /tasks` followed by `POST /tasks` with body `milk` on
a fresh store and an empty working cache, through the handlers of
`internal/api`. -/
def listedThenCreated : Outcome :=
  Route.serve sampleLib id false Route.CreateOne
    (Route.serve sampleLib id false Route.GetAll NewTaskStore ⟨true, []⟩ ⟨"/tasks", ""⟩).store
    (Route.serve sampleLib id false Route.GetAll NewTaskStore ⟨true, []⟩ ⟨"/tasks", ""⟩).cache
    ⟨"/tasks", "milk"⟩

/-! ## Runs of the server -/

/-- One request as the process serves it: the route it is dispatched to, the
request, whether the Redis server answers during the call, and the order in
which a `range` over the task map visits the entries. -/
structure Served where
  route : Route
  req : Request
  cacheUp : Bool
  order : TaskMap → TaskMap

/-- The store and cache after one served request. -/
def Served.apply (lib : Lib) (mainPkg : Bool) (st : TaskStore × RedisCache) (x : Served) :
    TaskStore × RedisCache :=
  ((x.route.serve lib x.order mainPkg st.1 { st.2 with online := x.cacheUp } x.req).store,
   (x.route.serve lib x.order mainPkg st.1 { st.2 with online := x.cacheUp } x.req).cache)

/-- The store and cache after a sequence of served requests. -/
def serveAll (lib : Lib) (mainPkg : Bool) (st : TaskStore × RedisCache) :
    List Served → TaskStore × RedisCache
  | [] => st
  | x :: xs => serveAll lib mainPkg (x.apply lib mainPkg st) xs

/-- The number of requests of a sequence dispatched to `CreateOne`, a bound
on the number of `Add` calls it makes. -/
def createCount : List Served → Nat
  | [] => 0
  | x :: xs => (if x.route = Route.CreateOne then 1 else 0) + createCount xs

/-- Every key of the store is an identifier the counter has passed. -/
def StoreInRange (s : TaskStore) : Prop :=
  1 ≤ s.nextID ∧ ∀ e ∈ s.tasks, 1 ≤ e.1 ∧ e.1 < s.nextID

/-- Every cache key is `all_tasks` or `task:<id>` for an identifier the
counter has passed. -/
def CacheInRange (s : TaskStore) (c : RedisCache) : Prop :=
  ∀ e ∈ c.entries, e.1 = "all_tasks" ∨ ∃ id : Int, e.1 = cacheKey id ∧ 1 ≤ id ∧ id < s.nextID

/-- A reader of signed decimal numerals, the inverse of `%d`. -/
def readInt : List Char → Option Int
  | '-' :: ds => (digitsValue ds 0).map (fun n => - (n : Int))
  | ds => (digitsValue ds 0).map (fun n => (n : Int))

end GoHw17

namespace GoHw17

/-! ## Map lemmas -/

theorem TaskMap.lookup_assign_self (m : TaskMap) (k : Int) (v : Task) :
    TaskMap.lookup (TaskMap.assign m k v) k = some v := by
  induction m with
  | nil => simp [TaskMap.assign, TaskMap.lookup]
  | cons e rest ih =>
    obtain ⟨k', v'⟩ := e
    by_cases h : k' = k
    · simp [TaskMap.assign, TaskMap.lookup, h]
    · simp [TaskMap.assign, TaskMap.lookup, h, ih]

theorem TaskMap.lookup_assign_ne (m : TaskMap) (k j : Int) (v : Task) (hj : j ≠ k) :
    TaskMap.lookup (TaskMap.assign m k v) j = TaskMap.lookup m j := by
  have hk : ¬ k = j := fun h => hj h.symm
  induction m with
  | nil => simp [TaskMap.assign, TaskMap.lookup, hk]
  | cons e rest ih =>
    obtain ⟨k', v'⟩ := e
    by_cases h : k' = k
    · subst h
      simp [TaskMap.assign, TaskMap.lookup, hk]
    · by_cases h' : k' = j
      · subst h'
        simp [TaskMap.assign, TaskMap.lookup, h]
      · simp [TaskMap.assign, TaskMap.lookup, h, h', ih]

theorem TaskMap.lookup_remove_self (m : TaskMap) (k : Int) :
    TaskMap.lookup (TaskMap.remove m k) k = none := by
  induction m with
  | nil => simp [TaskMap.remove, TaskMap.lookup]
  | cons e rest ih =>
    obtain ⟨k', v'⟩ := e
    by_cases h : k' = k
    · simp [TaskMap.remove, h, ih]
    · simp [TaskMap.remove, TaskMap.lookup, h, ih]

theorem TaskMap.lookup_remove_ne (m : TaskMap) (k j : Int) (hj : j ≠ k) :
    TaskMap.lookup (TaskMap.remove m k) j = TaskMap.lookup m j := by
  have hk : ¬ k = j := fun h => hj h.symm
  induction m with
  | nil => simp [TaskMap.remove, TaskMap.lookup]
  | cons e rest ih =>
    obtain ⟨k', v'⟩ := e
    by_cases h : k' = k
    · subst h
      simp [TaskMap.remove, TaskMap.lookup, hk, ih]
    · simp [TaskMap.remove, TaskMap.lookup, h, ih]

theorem TaskMap.mem_assign (m : TaskMap) (k : Int) (v : Task) (e : Int × Task)
    (he : e ∈ TaskMap.assign m k v) : e ∈ m ∨ e = (k, v) := by
  induction m with
  | nil =>
    simp [TaskMap.assign] at he
    exact Or.inr he
  | cons e' rest ih =>
    obtain ⟨k', v'⟩ := e'
    by_cases h : k' = k
    · simp [TaskMap.assign, h] at he
      rcases he with he | he
      · exact Or.inr he
      · exact Or.inl (List.mem_cons_of_mem _ he)
    · simp [TaskMap.assign, h] at he
      rcases he with he | he
      · exact Or.inl (by simp [he])
      · rcases ih he with h1 | h1
        · exact Or.inl (List.mem_cons_of_mem _ h1)
        · exact Or.inr h1

theorem TaskMap.mem_remove (m : TaskMap) (k : Int) (e : Int × Task)
    (he : e ∈ TaskMap.remove m k) : e ∈ m := by
  induction m with
  | nil => simp [TaskMap.remove] at he
  | cons e' rest ih =>
    obtain ⟨k', v'⟩ := e'
    by_cases h : k' = k
    · simp [TaskMap.remove, h] at he
      exact List.mem_cons_of_mem _ (ih he)
    · simp [TaskMap.remove, h] at he
      rcases he with he | he
      · simp [he]
      · exact List.mem_cons_of_mem _ (ih he)

/-! ## Store methods -/

theorem TaskStore.Get_ok_iff (ts : TaskStore) (id : Int) :
    (ts.Get id).2 = true ↔ ∃ t, ts.tasks.lookup id = some t := by
  unfold TaskStore.Get
  cases h : TaskMap.lookup ts.tasks id <;> simp

theorem TaskStore.Get_missing (ts : TaskStore) (id : Int) (h : (ts.Get id).2 = false) :
    ts.tasks.lookup id = none := by
  unfold TaskStore.Get at h
  cases h' : TaskMap.lookup ts.tasks id with
  | none => rfl
  | some t => simp [h'] at h

theorem TaskStore.Get_present (ts : TaskStore) (id : Int) (h : (ts.Get id).2 = true) :
    ∃ t, ts.tasks.lookup id = some t :=
  (TaskStore.Get_ok_iff ts id).mp h

theorem TaskStore.Get_of_lookup (ts : TaskStore) (id : Int) (t : Task)
    (h : ts.tasks.lookup id = some t) : ts.Get id = (t, true) := by
  simp [TaskStore.Get, h]

theorem TaskStore.Get_of_lookup_none (ts : TaskStore) (id : Int)
    (h : ts.tasks.lookup id = none) : ts.Get id = (Task.zero, false) := by
  simp [TaskStore.Get, h]

theorem TaskStore.Get_congr (ts ts' : TaskStore) (id id' : Int)
    (h : ts'.tasks.lookup id' = ts.tasks.lookup id) : ts'.Get id' = ts.Get id := by
  simp [TaskStore.Get, h]

/-! ## 64-bit arithmetic -/

theorem wrapInt_of_range (x : Int) (h1 : minInt ≤ x) (h2 : x ≤ maxInt) : wrapInt x = x := by
  unfold wrapInt
  unfold minInt at h1
  unfold maxInt at h2
  omega

theorem wrapInt_range (x : Int) : minInt ≤ wrapInt x ∧ wrapInt x ≤ maxInt := by
  unfold wrapInt minInt maxInt
  omega

theorem wrapInt_wrapInt (x : Int) : wrapInt (wrapInt x) = wrapInt x := by
  unfold wrapInt
  omega

theorem wrapInt_succ (x : Int) (k : Nat) :
    wrapInt (wrapInt (x + 1) + k) = wrapInt (x + (k + 1 : Nat)) := by
  unfold wrapInt
  push_cast
  omega

/-! ## Sequences of calls -/

theorem run_append (pre post : List Call) :
    ∀ ts : TaskStore, run ts (pre ++ post) = run (run ts pre) post := by
  induction pre with
  | nil => intro ts; rfl
  | cons c pre ih =>
    intro ts
    show run (c.apply ts) (pre ++ post) = run (run (c.apply ts) pre) post
    exact ih _

theorem issued_append (pre post : List Call) :
    ∀ ts : TaskStore, issued ts (pre ++ post) = issued ts pre ++ issued (run ts pre) post := by
  induction pre with
  | nil => intro ts; rfl
  | cons c pre ih =>
    intro ts
    cases c with
    | add task =>
      show (ts.Add task).1 :: issued (ts.Add task).2 (pre ++ post) = _
      rw [ih]
      rfl
    | update k task => exact ih _
    | delete k => exact ih _
    | get k => exact ih _
    | getAll => exact ih _

theorem Call.nextID_update (ts : TaskStore) (id : Int) (task : Task) :
    (ts.Update id task).2.nextID = ts.nextID := by
  unfold TaskStore.Update
  cases TaskMap.lookup ts.tasks id <;> rfl

theorem Call.nextID_delete (ts : TaskStore) (id : Int) :
    (ts.Delete id).2.nextID = ts.nextID := by
  unfold TaskStore.Delete
  cases TaskMap.lookup ts.tasks id <;> rfl

/-- After a sequence of calls the counter is the old one advanced, modulo
`2 ^ 64`, by the number of `Add` calls. -/
theorem nextID_run (cs : List Call) :
    ∀ ts : TaskStore, wrapInt ts.nextID = ts.nextID →
      (run ts cs).nextID = wrapInt (ts.nextID + addCount cs) := by
  induction cs with
  | nil =>
    intro ts h
    simp only [run, addCount, Nat.cast_zero, add_zero, h]
  | cons c cs ih =>
    intro ts h
    cases c with
    | add task =>
      have h1 : (ts.Add task).2.nextID = wrapInt (ts.nextID + 1) := rfl
      simp only [run, addCount, Call.apply]
      rw [ih _ (by rw [h1, wrapInt_wrapInt]), h1, wrapInt_succ]
    | update k task =>
      simp only [run, addCount, Call.apply]
      rw [ih _ (by rw [Call.nextID_update]; exact h), Call.nextID_update]
    | delete k =>
      simp only [run, addCount, Call.apply]
      rw [ih _ (by rw [Call.nextID_delete]; exact h), Call.nextID_delete]
    | get k => exact ih ts h
    | getAll => exact ih ts h

/-- The identifiers a sequence of calls issues are the old counter and its
successors modulo `2 ^ 64`, one for each `Add` call. -/
theorem issued_eq (cs : List Call) :
    ∀ ts : TaskStore, wrapInt ts.nextID = ts.nextID →
      issued ts cs = (List.range (addCount cs)).map (fun k : Nat => wrapInt (ts.nextID + (k : Int))) := by
  induction cs with
  | nil => intro ts h; rfl
  | cons c cs ih =>
    intro ts h
    cases c with
    | add task =>
      have h1 : (ts.Add task).2.nextID = wrapInt (ts.nextID + 1) := rfl
      have h0 : (ts.Add task).1 = ts.nextID := rfl
      simp only [issued, addCount]
      rw [ih _ (by rw [h1, wrapInt_wrapInt]), h1, h0, List.range_succ_eq_map, List.map_cons,
        List.map_map]
      congr 1
      · simp only [Nat.cast_zero, add_zero, h]
      · apply List.map_congr_left
        intro k _
        simp only [Function.comp_apply]
        exact wrapInt_succ ts.nextID k
    | update k task =>
      simp only [issued, addCount, Call.apply]
      rw [ih _ (by rw [Call.nextID_update]; exact h), Call.nextID_update]
    | delete k =>
      simp only [issued, addCount, Call.apply]
      rw [ih _ (by rw [Call.nextID_delete]; exact h), Call.nextID_delete]
    | get k => exact ih ts h
    | getAll => exact ih ts h

theorem addCount_manyAdds (n : Nat) : addCount (manyAdds n) = n := by
  induction n with
  | zero => rfl
  | succ n ih =>
    simp only [manyAdds, List.replicate_succ, addCount] at ih ⊢
    rw [ih]

theorem NewTaskStore_nextID : wrapInt NewTaskStore.nextID = NewTaskStore.nextID := by
  decide

theorem issued_fresh (cs : List Call) :
    issued NewTaskStore cs = (List.range (addCount cs)).map (fun k : Nat => wrapInt (1 + (k : Int))) :=
  issued_eq cs NewTaskStore NewTaskStore_nextID

theorem issued_fresh_pairwise (cs : List Call) (h : (addCount cs : Int) ≤ 2 ^ 63 - 1) :
    (issued NewTaskStore cs).Pairwise (fun a b => a < b) := by
  rw [issued_fresh, List.pairwise_map]
  refine (List.pairwise_lt_range (addCount cs)).imp_of_mem ?_
  intro a b ha hb hab
  rw [List.mem_range] at ha hb
  unfold wrapInt
  omega

theorem issued_fresh_nodup (cs : List Call) (h : (addCount cs : Int) ≤ 2 ^ 64) :
    (issued NewTaskStore cs).Nodup := by
  unfold List.Nodup
  rw [issued_fresh, List.pairwise_map]
  refine (List.pairwise_lt_range (addCount cs)).imp_of_mem ?_
  intro a b ha hb hab
  rw [List.mem_range] at ha hb
  unfold wrapInt
  omega

theorem issued_fresh_below (cs : List Call) (h : (addCount cs : Int) < 2 ^ 63 - 1) :
    ∀ id ∈ issued NewTaskStore cs, id < (run NewTaskStore cs).nextID := by
  intro id hid
  rw [issued_fresh, List.mem_map] at hid
  obtain ⟨k, hk, rfl⟩ := hid
  rw [List.mem_range] at hk
  rw [nextID_run cs NewTaskStore NewTaskStore_nextID]
  have h1 : NewTaskStore.nextID = 1 := rfl
  rw [h1]
  unfold wrapInt
  omega

/-- The invariant of the store: every entry of the map is filed under the
`ID` of its record. -/
theorem Call.keys_match (ts : TaskStore) (c : Call)
    (h : ∀ e ∈ ts.tasks, e.2.ID = e.1) : ∀ e ∈ (c.apply ts).tasks, e.2.ID = e.1 := by
  cases c with
  | add task =>
    intro e he
    simp only [Call.apply, TaskStore.Add] at he
    rcases TaskMap.mem_assign _ _ _ _ he with h1 | h1
    · exact h e h1
    · simp [h1]
  | update id task =>
    intro e he
    simp only [Call.apply, TaskStore.Update] at he
    cases hl : TaskMap.lookup ts.tasks id with
    | none =>
      simp only [hl] at he
      exact h e he
    | some t =>
      simp only [hl] at he
      rcases TaskMap.mem_assign _ _ _ _ he with h1 | h1
      · exact h e h1
      · simp [h1]
  | delete id =>
    intro e he
    simp only [Call.apply, TaskStore.Delete] at he
    cases hl : TaskMap.lookup ts.tasks id with
    | none =>
      simp only [hl] at he
      exact h e he
    | some t =>
      simp only [hl] at he
      exact h e (TaskMap.mem_remove _ _ _ he)
  | get id => simpa [Call.apply] using h
  | getAll => simpa [Call.apply] using h

theorem run_keys_match (cs : List Call) :
    ∀ ts : TaskStore, (∀ e ∈ ts.tasks, e.2.ID = e.1) →
      ∀ e ∈ (run ts cs).tasks, e.2.ID = e.1 := by
  induction cs with
  | nil => intro ts h; simpa [run] using h
  | cons c cs ih =>
    intro ts h
    simp only [run]
    exact ih _ (Call.keys_match ts c h)

theorem TaskMap.mem_of_lookup (m : TaskMap) (k : Int) (t : Task)
    (h : TaskMap.lookup m k = some t) : (k, t) ∈ m := by
  induction m with
  | nil => simp [TaskMap.lookup] at h
  | cons e rest ih =>
    obtain ⟨k', v'⟩ := e
    by_cases hk : k' = k
    · simp [TaskMap.lookup, hk] at h
      simp [hk, h]
    · simp [TaskMap.lookup, hk] at h
      exact List.mem_cons_of_mem _ (ih h)

/-! ## Adds alone -/

theorem TaskStore.Add_Get_ok (ts : TaskStore) (task : Task) (k : Int) :
    ((ts.Add task).2.Get k).2 = true ↔ (k = ts.nextID ∨ (ts.Get k).2 = true) := by
  by_cases hk : k = ts.nextID
  · subst hk
    have : (ts.Add task).2.Get ts.nextID = (⟨ts.nextID, task.Title, task.Completed⟩, true) := by
      apply TaskStore.Get_of_lookup
      exact TaskMap.lookup_assign_self _ _ _
    simp [this]
  · have : (ts.Add task).2.Get k = ts.Get k := by
      apply TaskStore.Get_congr
      exact TaskMap.lookup_assign_ne _ _ _ _ hk
    simp [this, hk]

theorem TaskStore.Add_nextID (ts : TaskStore) (task : Task)
    (h1 : minInt ≤ ts.nextID) (h2 : ts.nextID < maxInt) :
    (ts.Add task).2.nextID = ts.nextID + 1 := by
  show wrapInt (ts.nextID + 1) = ts.nextID + 1
  apply wrapInt_of_range <;> omega

/-- A run of `Add` calls alone, in whatever order they take the lock, leaves
under the identifiers from the old `nextID` on one record for each call, and
nothing else new, as long as the counter stays below `maxInt`. -/
theorem adds_keys (tasks : List Task) :
    ∀ (ts : TaskStore) (k : Int), minInt ≤ ts.nextID → ts.nextID + tasks.length ≤ maxInt →
      (((run ts (tasks.map Call.add)).Get k).2 = true
        ↔ ((ts.Get k).2 = true ∨ (ts.nextID ≤ k ∧ k < ts.nextID + tasks.length))) := by
  induction tasks with
  | nil =>
    intro ts k _ _
    simp [run]
  | cons t rest ih =>
    intro ts k hlo hhi
    simp only [List.length_cons, Nat.cast_add, Nat.cast_one] at hhi
    have hn : (ts.Add t).2.nextID = ts.nextID + 1 :=
      TaskStore.Add_nextID ts t hlo (by omega)
    have hstep := ih (ts.Add t).2 k (by rw [hn]; omega) (by rw [hn]; omega)
    simp only [List.map_cons, run, Call.apply, hstep, TaskStore.Add_Get_ok, List.length_cons]
    rw [hn]
    push_cast
    constructor
    · rintro ((h | h) | ⟨h1, h2⟩)
      · right; omega
      · left; exact h
      · right; omega
    · rintro (h | ⟨h1, h2⟩)
      · left; right; exact h
      · by_cases hk : k = ts.nextID
        · left; left; exact hk
        · right; omega

/-- On a fresh store, `n` calls of `Add`, for `n` below `2 ^ 63 - 1`, leave
exactly the identifiers `1, ..., n` as keys. -/
theorem adds_fresh (tasks : List Task) (k : Int) (hn : (tasks.length : Int) < 2 ^ 63 - 1) :
    ((run NewTaskStore (tasks.map Call.add)).Get k).2 = true
      ↔ (1 ≤ k ∧ k ≤ tasks.length) := by
  have h0 : (NewTaskStore.Get k).2 = false := rfl
  have h1 : NewTaskStore.nextID = 1 := rfl
  rw [adds_keys tasks NewTaskStore k (by decide) (by rw [h1]; unfold maxInt; omega), h0, h1]
  constructor
  · rintro (h | ⟨h2, h3⟩)
    · simp at h
    · omega
  · rintro ⟨h2, h3⟩
    right
    omega

/-! ## The claims about the store -/

/-- C1, as amended: on a store made by `NewTaskStore`, the identifiers
returned by the `Add` calls of a sequence of calls are strictly increasing in
call order when the sequence has at most `2 ^ 63 - 1` calls of `Add`, none is
returned twice when it has at most `2 ^ 64`, and each is below the `nextID`
counter the sequence leaves when it has fewer than `2 ^ 63 - 1`. -/
theorem issued_strictly_increasing (cs : List Call) :
    ((addCount cs : Int) ≤ 2 ^ 63 - 1 → (issued NewTaskStore cs).Pairwise (fun a b => a < b))
      ∧ ((addCount cs : Int) ≤ 2 ^ 64 → (issued NewTaskStore cs).Nodup)
      ∧ ((addCount cs : Int) < 2 ^ 63 - 1 →
          ∀ id ∈ issued NewTaskStore cs, id < (run NewTaskStore cs).nextID) :=
  ⟨issued_fresh_pairwise cs, issued_fresh_nodup cs, issued_fresh_below cs⟩

/-- C2, as amended: `Add` returns the old `nextID`, leaves the record at every
other identifier as it was, and a `Get` of the returned identifier finds the
task's title and completed flag under that identifier, whatever `ID` the
argument carried; it raises `nextID` by one when the counter, a Go `int`, is
below `maxInt`, and sets it to `minInt` when the counter is `maxInt`. -/
theorem Add_spec (ts : TaskStore) (task : Task) :
    (ts.Add task).1 = ts.nextID
      ∧ (minInt ≤ ts.nextID → ts.nextID < maxInt → (ts.Add task).2.nextID = ts.nextID + 1)
      ∧ (ts.nextID = maxInt → (ts.Add task).2.nextID = minInt)
      ∧ (∀ k, k ≠ (ts.Add task).1 → (ts.Add task).2.Get k = ts.Get k)
      ∧ (ts.Add task).2.Get (ts.Add task).1
          = (⟨(ts.Add task).1, task.Title, task.Completed⟩, true) := by
  refine ⟨rfl, TaskStore.Add_nextID ts task, ?_, ?_, ?_⟩
  · intro h
    show wrapInt (ts.nextID + 1) = minInt
    rw [h]
    decide
  · intro k hk
    apply TaskStore.Get_congr
    exact TaskMap.lookup_assign_ne _ _ _ _ hk
  · apply TaskStore.Get_of_lookup
    exact TaskMap.lookup_assign_self _ _ _

/-- C3: `Update` at an identifier that is not a key returns `false` and
returns the store it was given, map and counter alike; in particular no
record appears at that identifier. -/
theorem Update_missing (ts : TaskStore) (id : Int) (task : Task)
    (h : (ts.Get id).2 = false) :
    ts.Update id task = (false, ts) ∧ (ts.Update id task).2.tasks = ts.tasks
      ∧ (ts.Update id task).2.nextID = ts.nextID
      ∧ ((ts.Update id task).2.Get id).2 = false := by
  have hl := TaskStore.Get_missing ts id h
  have hu : ts.Update id task = (false, ts) := by simp [TaskStore.Update, hl]
  rw [hu]
  exact ⟨rfl, rfl, rfl, h⟩

/-- C4: `Update` at a key returns `true`; afterwards the record at that key
has the key as `ID` and the payload's title and completed flag, the record at
every other identifier is as before, the same identifiers are keys, and
`nextID` is as before. -/
theorem Update_present (ts : TaskStore) (id : Int) (task : Task)
    (h : (ts.Get id).2 = true) :
    (ts.Update id task).1 = true
      ∧ (ts.Update id task).2.Get id = (⟨id, task.Title, task.Completed⟩, true)
      ∧ (∀ k, k ≠ id → (ts.Update id task).2.Get k = ts.Get k)
      ∧ (∀ k, ((ts.Update id task).2.Get k).2 = (ts.Get k).2)
      ∧ (ts.Update id task).2.nextID = ts.nextID := by
  obtain ⟨t, hl⟩ := TaskStore.Get_present ts id h
  have hu : ts.Update id task
      = (true, { ts with tasks := ts.tasks.assign id { task with ID := id } }) := by
    simp [TaskStore.Update, hl]
  have hne : ∀ k, k ≠ id → (ts.Update id task).2.Get k = ts.Get k := by
    intro k hk
    rw [hu]
    apply TaskStore.Get_congr
    exact TaskMap.lookup_assign_ne _ _ _ _ hk
  have hself : (ts.Update id task).2.Get id = (⟨id, task.Title, task.Completed⟩, true) := by
    rw [hu]
    apply TaskStore.Get_of_lookup
    exact TaskMap.lookup_assign_self _ _ _
  refine ⟨by rw [hu], hself, hne, ?_, by rw [hu]⟩
  intro k
  by_cases hk : k = id
  · subst hk
    rw [hself, h]
  · rw [hne k hk]

/-- C5: of two `Delete` calls in a row at a key, the first returns `true` and
the second `false`; the second returns the store it was given, and a `Get`
after the first reports the zero record and `false`. -/
theorem Delete_twice (ts : TaskStore) (id : Int) (h : (ts.Get id).2 = true) :
    (ts.Delete id).1 = true
      ∧ (ts.Delete id).2.Delete id = (false, (ts.Delete id).2)
      ∧ (ts.Delete id).2.Get id = (Task.zero, false) := by
  obtain ⟨t, hl⟩ := TaskStore.Get_present ts id h
  have hd : ts.Delete id = (true, { ts with tasks := ts.tasks.remove id }) := by
    simp [TaskStore.Delete, hl]
  have hgone : (ts.Delete id).2.tasks.lookup id = none := by
    rw [hd]
    exact TaskMap.lookup_remove_self _ _
  refine ⟨by rw [hd], ?_, TaskStore.Get_of_lookup_none _ _ hgone⟩
  generalize (ts.Delete id).2 = ts' at hgone
  simp [TaskStore.Delete, hgone]

/-- C6: in the store reached from `NewTaskStore` by any sequence of `Add`,
`Update`, `Delete`, `Get` and `GetAll` calls, every entry of the task map is
filed under the `ID` of its record, and so every record `Get` finds carries
the identifier it was asked for. -/
theorem keys_equal_ids (cs : List Call) :
    (∀ e ∈ (run NewTaskStore cs).tasks, e.2.ID = e.1)
      ∧ (∀ id, ((run NewTaskStore cs).Get id).2 = true →
          ((run NewTaskStore cs).Get id).1.ID = id) := by
  have hinv : ∀ e ∈ (run NewTaskStore cs).tasks, e.2.ID = e.1 :=
    run_keys_match cs NewTaskStore (by simp [NewTaskStore])
  refine ⟨hinv, ?_⟩
  intro id hid
  obtain ⟨t, hl⟩ := TaskStore.Get_present _ id hid
  rw [TaskStore.Get_of_lookup _ _ _ hl]
  exact hinv (id, t) (TaskMap.mem_of_lookup _ _ _ hl)

/-! ## Cache lemmas -/

theorem cacheFind_cacheDrop (es : List (String × CacheEntry)) (key : String) :
    cacheFind (cacheDrop es key) key = none := by
  induction es with
  | nil => simp [cacheDrop, cacheFind]
  | cons e rest ih =>
    obtain ⟨k, v⟩ := e
    by_cases h : k = key
    · simp [cacheDrop, h, ih]
    · simp [cacheDrop, cacheFind, h, ih]

theorem RedisCache.Get_offline (c : RedisCache) (key : String) (h : c.online = false) :
    c.Get key = none := by
  simp [RedisCache.Get, h]

theorem RedisCache.Get_Del (c : RedisCache) (key : String) :
    (c.Del key).2.Get key = none := by
  cases h : c.online
  · simp [RedisCache.Del, RedisCache.Get, h]
  · simp [RedisCache.Del, RedisCache.Get, h, cacheFind_cacheDrop]

/-! ## Handlers on a request that names an identifier -/

theorem TaskResource.GetOne_miss (lib : Lib) (s : TaskStore) (c : RedisCache) (r : Request)
    (a b idStr : String) (id : Int)
    (hp : Split r.path = [a, b, idStr]) (ha : lib.Atoi idStr = some id)
    (hmiss : c.Get (cacheKey id) = none) :
    TaskResource.GetOne lib s c r =
      match s.Get id with
      | (_, false) => ⟨httpNotFound, s, c⟩
      | (task, true) =>
        ⟨jsonOK (lib.Marshal task), s, (c.Set (cacheKey id) (lib.Marshal task) 3600).2⟩ := by
  simp only [TaskResource.GetOne, hp, ha, hmiss]

theorem TaskResource.UpdateOne_ok (lib : Lib) (s : TaskStore) (c : RedisCache) (r : Request)
    (a b idStr : String) (id : Int) (payload : Task)
    (hp : Split r.path = [a, b, idStr]) (ha : lib.Atoi idStr = some id)
    (hd : lib.Decode r.body = .ok payload) (hkey : (s.Get id).2 = true) :
    TaskResource.UpdateOne lib s c r
      = ⟨⟨200, [], ""⟩, (s.Update id payload).2, (c.Del (cacheKey id)).2⟩ := by
  obtain ⟨t, hl⟩ := TaskStore.Get_present s id hkey
  simp only [TaskResource.UpdateOne, hp, ha, hd, TaskStore.Update, hl]

theorem TaskStore.Update_lookup_self (s : TaskStore) (id : Int) (payload : Task)
    (hkey : (s.Get id).2 = true) :
    (s.Update id payload).2.Get id = (⟨id, payload.Title, payload.Completed⟩, true) := by
  obtain ⟨t, hl⟩ := TaskStore.Get_present s id hkey
  apply TaskStore.Get_of_lookup
  simp only [TaskStore.Update, hl]
  exact TaskMap.lookup_assign_self _ _ _

/-! ## Cache keys -/

theorem digitsValue_digitChar (m : Nat) (hm : m < 10) (ds : List Char) (acc : Nat) :
    digitsValue (Nat.digitChar m :: ds) acc = digitsValue ds (10 * acc + m) := by
  interval_cases m <;> rfl

theorem digitsValue_toDigitsCore (fuel : Nat) :
    ∀ (n : Nat) (ds : List Char), n < fuel →
      digitsValue (Nat.toDigitsCore 10 fuel n ds) 0 = digitsValue ds n := by
  induction fuel with
  | zero => intro n ds h; omega
  | succ fuel ih =>
    intro n ds h
    unfold Nat.toDigitsCore
    have hmod : n % 10 < 10 := Nat.mod_lt _ (by decide)
    by_cases h0 : n / 10 = 0
    · simp only [h0, if_true]
      rw [digitsValue_digitChar _ hmod]
      have : n = n % 10 := by omega
      rw [Nat.mul_zero, Nat.zero_add, ← this]
    · simp only [h0, if_false]
      rw [ih (n / 10) _ (by omega), digitsValue_digitChar _ hmod]
      congr 1
      omega

theorem digitsValue_repr (n : Nat) : digitsValue (Nat.repr n).data 0 = some n := by
  simp only [Nat.repr, Nat.toDigits, List.asString]
  rw [digitsValue_toDigitsCore (n + 1) n [] (by omega)]
  rfl

theorem repr_head (n : Nat) : ∀ ds, (Nat.repr n).data ≠ '-' :: ds := by
  intro ds h
  have := digitsValue_repr n
  rw [h] at this
  simp [digitsValue] at this

theorem readInt_toString (i : Int) : readInt (toString i).data = some i := by
  cases i with
  | ofNat n =>
    show readInt (Nat.repr n).data = some _
    unfold readInt
    split
    · rename_i ds h
      exact absurd h (repr_head n ds)
    · rw [digitsValue_repr]; rfl
  | negSucc n =>
    show readInt ("-" ++ Nat.repr (n + 1)).data = some _
    have : ("-" ++ Nat.repr (n + 1)).data = '-' :: (Nat.repr (n + 1)).data := rfl
    rw [this]
    simp only [readInt, digitsValue_repr, Option.map_some']
    rfl

theorem cacheKey_data (i : Int) : (cacheKey i).data = "task:".data ++ (toString i).data := rfl

theorem cacheKey_injective (a b : Int) (h : cacheKey a = cacheKey b) : a = b := by
  have h1 : (cacheKey a).data = (cacheKey b).data := by rw [h]
  rw [cacheKey_data, cacheKey_data] at h1
  have h2 := List.append_cancel_left h1
  have h3 := readInt_toString a
  rw [h2, readInt_toString] at h3
  exact (Option.some.inj h3).symm

theorem cacheKey_ne_all_tasks (a : Int) : cacheKey a ≠ "all_tasks" := by
  intro h
  have h1 : (cacheKey a).data = "all_tasks".data := by rw [h]
  rw [cacheKey_data] at h1
  revert h1
  simp

/-! ## Runs of the server: which keys the cache can hold -/

theorem mem_cacheDrop (es : List (String × CacheEntry)) (key : String) (e : String × CacheEntry)
    (h : e ∈ cacheDrop es key) : e ∈ es := by
  induction es with
  | nil => simp [cacheDrop] at h
  | cons e' rest ih =>
    obtain ⟨k, v⟩ := e'
    by_cases hk : k = key
    · simp [cacheDrop, hk] at h
      exact List.mem_cons_of_mem _ (ih h)
    · simp [cacheDrop, hk] at h
      rcases h with h | h
      · simp [h]
      · exact List.mem_cons_of_mem _ (ih h)

theorem cacheFind_mem (es : List (String × CacheEntry)) (key : String) (v : CacheEntry)
    (h : cacheFind es key = some v) : (key, v) ∈ es := by
  induction es with
  | nil => simp [cacheFind] at h
  | cons e' rest ih =>
    obtain ⟨k, w⟩ := e'
    by_cases hk : k = key
    · simp [cacheFind, hk] at h
      simp [hk, h]
    · simp [cacheFind, hk] at h
      exact List.mem_cons_of_mem _ (ih h)

theorem CacheInRange.mono (s s' : TaskStore) (c c' : RedisCache)
    (hn : s.nextID ≤ s'.nextID) (he : c'.entries = c.entries) (h : CacheInRange s c) :
    CacheInRange s' c' := by
  intro e hmem
  rw [he] at hmem
  rcases h e hmem with h1 | ⟨id, h1, h2, h3⟩
  · exact Or.inl h1
  · exact Or.inr ⟨id, h1, h2, lt_of_lt_of_le h3 hn⟩

theorem CacheInRange.Del (s : TaskStore) (c : RedisCache) (key : String)
    (h : CacheInRange s c) : CacheInRange s (c.Del key).2 := by
  intro e hmem
  unfold RedisCache.Del at hmem
  split at hmem
  · exact h e (mem_cacheDrop _ _ _ hmem)
  · exact h e hmem

theorem CacheInRange.Set (s : TaskStore) (c : RedisCache) (key value : String) (ttl : Nat)
    (hkey : key = "all_tasks" ∨ ∃ id : Int, key = cacheKey id ∧ 1 ≤ id ∧ id < s.nextID)
    (h : CacheInRange s c) : CacheInRange s (c.Set key value ttl).2 := by
  intro e hmem
  unfold RedisCache.Set at hmem
  split at hmem
  · simp only [List.mem_cons] at hmem
    rcases hmem with hmem | hmem
    · rw [hmem]
      exact hkey
    · exact h e (mem_cacheDrop _ _ _ hmem)
  · exact h e hmem

theorem StoreInRange.Add (s : TaskStore) (task : Task) (h : StoreInRange s)
    (hroom : s.nextID < maxInt) :
    StoreInRange (s.Add task).2 ∧ (s.Add task).2.nextID = s.nextID + 1 := by
  obtain ⟨h1, h2⟩ := h
  have hn : (s.Add task).2.nextID = s.nextID + 1 :=
    TaskStore.Add_nextID s task (by unfold minInt; omega) hroom
  refine ⟨⟨?_, ?_⟩, hn⟩
  · rw [hn]
    omega
  · intro e he
    rw [hn]
    rcases TaskMap.mem_assign _ _ _ _ he with h3 | h3
    · have := h2 e h3
      omega
    · rw [h3]
      simp only
      omega

theorem StoreInRange.key (s : TaskStore) (id : Int) (h : StoreInRange s)
    (hk : (s.Get id).2 = true) : 1 ≤ id ∧ id < s.nextID := by
  obtain ⟨t, hl⟩ := TaskStore.Get_present s id hk
  exact h.2 (id, t) (TaskMap.mem_of_lookup _ _ _ hl)

theorem StoreInRange.Update (s : TaskStore) (id : Int) (task : Task) (h : StoreInRange s) :
    StoreInRange (s.Update id task).2 ∧ (s.Update id task).2.nextID = s.nextID := by
  unfold TaskStore.Update
  cases hl : TaskMap.lookup s.tasks id with
  | none => exact ⟨h, rfl⟩
  | some t =>
    refine ⟨⟨h.1, ?_⟩, rfl⟩
    intro e he
    rcases TaskMap.mem_assign _ _ _ _ he with h3 | h3
    · exact h.2 e h3
    · rw [h3]
      exact h.2 (id, t) (TaskMap.mem_of_lookup _ _ _ hl)

theorem StoreInRange.Delete (s : TaskStore) (id : Int) (h : StoreInRange s) :
    StoreInRange (s.Delete id).2 ∧ (s.Delete id).2.nextID = s.nextID := by
  unfold TaskStore.Delete
  cases hl : TaskMap.lookup s.tasks id with
  | none => exact ⟨h, rfl⟩
  | some t =>
    refine ⟨⟨h.1, ?_⟩, rfl⟩
    intro e he
    exact h.2 e (TaskMap.mem_remove _ _ _ he)

theorem Route.serve_inRange (lib : Lib) (order : TaskMap → TaskMap) (mainPkg : Bool)
    (route : Route) (s : TaskStore) (c : RedisCache) (r : Request)
    (hs : StoreInRange s) (hc : CacheInRange s c)
    (hroom : route = Route.CreateOne → s.nextID < maxInt) :
    StoreInRange (route.serve lib order mainPkg s c r).store
      ∧ CacheInRange (route.serve lib order mainPkg s c r).store
          (route.serve lib order mainPkg s c r).cache
      ∧ (route ≠ Route.CreateOne → (route.serve lib order mainPkg s c r).store.nextID = s.nextID)
      ∧ (route.serve lib order mainPkg s c r).store.nextID ≤ s.nextID + 1 := by
  have hle : s.nextID ≤ s.nextID + 1 := by omega
  cases route with
  | GetAll =>
    simp only [Route.serve, TaskResource.GetAll]
    cases c.Get "all_tasks" with
    | some v => exact ⟨hs, hc, fun _ => rfl, hle⟩
    | none => exact ⟨hs, CacheInRange.Set s c _ _ _ (Or.inl rfl) hc, fun _ => rfl, hle⟩
  | CreateOne =>
    have hlt := hroom rfl
    cases mainPkg
    · simp only [Route.serve, Bool.false_eq_true, if_false, TaskResource.CreateOne]
      cases lib.Decode r.body with
      | error e => exact ⟨hs, hc, fun _ => rfl, hle⟩
      | ok task =>
        have ha := StoreInRange.Add s task hs hlt
        exact ⟨ha.1, CacheInRange.mono s _ c c (by rw [ha.2]; omega) rfl hc,
          fun h => absurd rfl h, le_of_eq ha.2⟩
    · simp only [Route.serve, if_true, TaskResource.CreateOneMain]
      cases lib.Decode r.body with
      | error e => exact ⟨hs, hc, fun _ => rfl, hle⟩
      | ok task =>
        have ha := StoreInRange.Add s task hs hlt
        refine ⟨ha.1, ?_, fun h => absurd rfl h, le_of_eq ha.2⟩
        apply CacheInRange.Set
        · refine Or.inr ⟨s.nextID, rfl, hs.1, ?_⟩
          rw [ha.2]
          omega
        · exact CacheInRange.mono s _ c c (by rw [ha.2]; omega) rfl hc
  | GetOne =>
    simp only [Route.serve, TaskResource.GetOne]
    split
    · rename_i x y idStr hsp
      cases lib.Atoi idStr with
      | none => exact ⟨hs, hc, fun _ => rfl, hle⟩
      | some id =>
        dsimp only
        cases c.Get (cacheKey id) with
        | some v => exact ⟨hs, hc, fun _ => rfl, hle⟩
        | none =>
          dsimp only
          cases hg : s.Get id with
          | mk t ok =>
            cases ok with
            | false => exact ⟨hs, hc, fun _ => rfl, hle⟩
            | true =>
              have hk := StoreInRange.key s id hs (by rw [hg])
              exact ⟨hs, CacheInRange.Set s c _ _ _ (Or.inr ⟨id, rfl, hk.1, hk.2⟩) hc,
                fun _ => rfl, hle⟩
    · exact ⟨hs, hc, fun _ => rfl, hle⟩
  | UpdateOne =>
    simp only [Route.serve, TaskResource.UpdateOne]
    split
    · rename_i x y idStr hsp
      cases lib.Atoi idStr with
      | none => exact ⟨hs, hc, fun _ => rfl, hle⟩
      | some id =>
        dsimp only
        cases lib.Decode r.body with
        | error e => exact ⟨hs, hc, fun _ => rfl, hle⟩
        | ok task =>
          dsimp only
          have hu := StoreInRange.Update s id task hs
          cases hupd : s.Update id task with
          | mk ok s' =>
            rw [hupd] at hu
            cases ok with
            | false => exact ⟨hs, hc, fun _ => rfl, hle⟩
            | true =>
              refine ⟨hu.1, CacheInRange.Del _ _ _ ?_, fun _ => hu.2, ?_⟩
              · exact CacheInRange.mono s s' c c (le_of_eq hu.2.symm) rfl hc
              · show s'.nextID ≤ s.nextID + 1
                have := hu.2
                simp only at this
                omega
    · exact ⟨hs, hc, fun _ => rfl, hle⟩
  | DeleteOne =>
    simp only [Route.serve, TaskResource.DeleteOne]
    split
    · rename_i x y idStr hsp
      cases lib.Atoi idStr with
      | none => exact ⟨hs, hc, fun _ => rfl, hle⟩
      | some id =>
        dsimp only
        have hu := StoreInRange.Delete s id hs
        cases hdel : s.Delete id with
        | mk ok s' =>
          rw [hdel] at hu
          cases ok with
          | false => exact ⟨hs, hc, fun _ => rfl, hle⟩
          | true =>
            refine ⟨hu.1, CacheInRange.Del _ _ _ ?_, fun _ => hu.2, ?_⟩
            · exact CacheInRange.mono s s' c c (le_of_eq hu.2.symm) rfl hc
            · show s'.nextID ≤ s.nextID + 1
              have := hu.2
              simp only at this
              omega
    · exact ⟨hs, hc, fun _ => rfl, hle⟩

theorem serveAll_inRange (lib : Lib) (mainPkg : Bool) (xs : List Served) :
    ∀ st : TaskStore × RedisCache, StoreInRange st.1 → CacheInRange st.1 st.2 →
      st.1.nextID + createCount xs ≤ maxInt →
      StoreInRange (serveAll lib mainPkg st xs).1
        ∧ CacheInRange (serveAll lib mainPkg st xs).1 (serveAll lib mainPkg st xs).2 := by
  induction xs with
  | nil => intro st hs hc _; exact ⟨hs, hc⟩
  | cons x xs ih =>
    intro st hs hc hroom
    simp only [serveAll]
    simp only [createCount, Nat.cast_add] at hroom
    have h := Route.serve_inRange lib x.order mainPkg x.route st.1
      { st.2 with online := x.cacheUp } x.req hs (CacheInRange.mono st.1 st.1 st.2 _ le_rfl rfl hc)
      (by
        intro hr
        simp only [hr, if_true, Nat.cast_one] at hroom
        omega)
    refine ih (x.apply lib mainPkg st) h.1 h.2.1 ?_
    show (x.route.serve lib x.order mainPkg st.1 { st.2 with online := x.cacheUp } x.req).store.nextID
      + createCount xs ≤ maxInt
    by_cases hr : x.route = Route.CreateOne
    · have h3 := h.2.2.2
      simp only [hr, if_true, Nat.cast_one] at hroom
      rw [hr] at h3
      rw [hr]
      omega
    · have h3 := h.2.2.1 hr
      simp only [hr, if_false, Nat.cast_zero] at hroom
      omega

/-- In a process that starts with a fresh store and an empty cache and serves
a sequence of requests, fewer than `2 ^ 63 - 1` of them to `CreateOne`, with
the cache answering or failing call by call, the cache never holds a value
under `task:<id>` for an identifier the store has not issued, so `GetOne` for
such an identifier answers 404. -/
theorem GetOne_never_issued (lib : Lib) (mainPkg : Bool) (xs : List Served) (up : Bool)
    (r : Request) (a b idStr : String) (id : Int)
    (hroom : (createCount xs : Int) < 2 ^ 63 - 1)
    (hp : Split r.path = [a, b, idStr]) (ha : lib.Atoi idStr = some id)
    (hid : id < 1 ∨ (serveAll lib mainPkg (NewTaskStore, ⟨true, []⟩) xs).1.nextID ≤ id) :
    (TaskResource.GetOne lib (serveAll lib mainPkg (NewTaskStore, ⟨true, []⟩) xs).1
        { (serveAll lib mainPkg (NewTaskStore, ⟨true, []⟩) xs).2 with online := up } r).resp
      = httpNotFound := by
  have hinv := serveAll_inRange lib mainPkg xs (NewTaskStore, ⟨true, []⟩)
    ⟨by decide, by intro e he; simp [NewTaskStore] at he⟩
    (by intro e he; simp at he)
    (by
      have h1 : NewTaskStore.nextID = 1 := rfl
      simp only [h1]
      unfold maxInt
      omega)
  generalize serveAll lib mainPkg (NewTaskStore, ⟨true, []⟩) xs = st at hinv hid
  obtain ⟨hs, hc⟩ := hinv
  have hmiss : ({ st.2 with online := up } : RedisCache).Get (cacheKey id) = none := by
    unfold RedisCache.Get
    split
    · cases hf : cacheFind st.2.entries (cacheKey id) with
      | none => rfl
      | some v =>
        exfalso
        rcases hc _ (cacheFind_mem _ _ _ hf) with h1 | ⟨id', h1, h2, h3⟩
        · exact cacheKey_ne_all_tasks id h1
        · have := cacheKey_injective _ _ h1
          omega
    · rfl
  have hkey : (st.1.Get id).2 = false := by
    cases hg : (st.1.Get id).2 with
    | false => rfl
    | true =>
      have := StoreInRange.key st.1 id hs hg
      omega
  rw [TaskResource.GetOne_miss lib _ _ r a b idStr id hp ha hmiss]
  rw [TaskStore.Get_of_lookup_none _ id (TaskStore.Get_missing _ id hkey)]

/-! ## A route under two caches -/

theorem Route.serve_miss (lib : Lib) (order : TaskMap → TaskMap) (mainPkg : Bool)
    (route : Route) (s : TaskStore) (r : Request) (cf cw : RedisCache)
    (hoff : cf.online = false)
    (hmiss : ∀ key, route.cacheRead lib r = some key → cw.Get key = none) :
    (route.serve lib order mainPkg s cf r).resp = (route.serve lib order mainPkg s cw r).resp
      ∧ (route.serve lib order mainPkg s cf r).store
          = (route.serve lib order mainPkg s cw r).store := by
  cases route with
  | GetAll =>
    have h1 := RedisCache.Get_offline cf "all_tasks" hoff
    have h2 := hmiss "all_tasks" rfl
    simp only [Route.serve, TaskResource.GetAll, h1, h2, and_self]
  | CreateOne =>
    cases mainPkg
    · cases hd : lib.Decode r.body <;> simp [Route.serve, TaskResource.CreateOne, hd]
    · cases hd : lib.Decode r.body <;> simp [Route.serve, TaskResource.CreateOneMain, hd]
  | GetOne =>
    simp only [Route.serve, TaskResource.GetOne]
    simp only [Route.cacheRead] at hmiss
    split
    · rename_i x y idStr hsp
      simp only [hsp] at hmiss
      cases ha : lib.Atoi idStr with
      | none => simp
      | some id =>
        have h1 := RedisCache.Get_offline cf (cacheKey id) hoff
        have h2 := hmiss (cacheKey id) (by simp [ha])
        simp only [h1, h2]
        cases s.Get id with
        | mk t ok => cases ok <;> simp
    · simp
  | UpdateOne =>
    simp only [Route.serve, TaskResource.UpdateOne]
    split
    · rename_i x y idStr hsp
      cases lib.Atoi idStr with
      | none => simp
      | some id =>
        cases lib.Decode r.body with
        | error e => simp
        | ok task =>
          cases hu : s.Update id task with
          | mk ok s' => cases ok <;> simp [hu]
    · simp
  | DeleteOne =>
    simp only [Route.serve, TaskResource.DeleteOne]
    split
    · rename_i x y idStr hsp
      cases lib.Atoi idStr with
      | none => simp
      | some id =>
        cases hu : s.Delete id with
        | mk ok s' => cases ok <;> simp [hu]
    · simp

theorem Route.serve_store (lib : Lib) (order : TaskMap → TaskMap) (mainPkg : Bool)
    (route : Route) (s : TaskStore) (r : Request) (c c' : RedisCache) :
    (route.serve lib order mainPkg s c r).store = (route.serve lib order mainPkg s c' r).store := by
  have key : ∀ c : RedisCache, (route.serve lib order mainPkg s c r).store
      = (route.serve lib order mainPkg s ⟨false, []⟩ r).store := by
    intro c
    have h0 : ∀ key, (⟨false, []⟩ : RedisCache).Get key = none := fun key => rfl
    cases route with
    | GetAll =>
      simp only [Route.serve, TaskResource.GetAll, h0]
      cases hc : c.Get "all_tasks" <;> simp
    | CreateOne =>
      cases mainPkg
      · cases hd : lib.Decode r.body <;> simp [Route.serve, TaskResource.CreateOne, hd]
      · cases hd : lib.Decode r.body <;> simp [Route.serve, TaskResource.CreateOneMain, hd]
    | GetOne =>
      simp only [Route.serve, TaskResource.GetOne]
      split
      · rename_i x y idStr hsp
        cases lib.Atoi idStr with
        | none => simp
        | some id =>
          simp only [h0]
          cases hg : s.Get id with
          | mk t ok =>
            cases hc : c.Get (cacheKey id) <;> cases ok <;> simp
      · simp
    | UpdateOne =>
      simp only [Route.serve, TaskResource.UpdateOne]
      split
      · rename_i x y idStr hsp
        cases lib.Atoi idStr with
        | none => simp
        | some id =>
          cases lib.Decode r.body with
          | error e => simp
          | ok task =>
            cases hu : s.Update id task with
            | mk ok s' => cases ok <;> simp [hu]
      · simp
    | DeleteOne =>
      simp only [Route.serve, TaskResource.DeleteOne]
      split
      · rename_i x y idStr hsp
        cases lib.Atoi idStr with
        | none => simp
        | some id =>
          cases hu : s.Delete id with
          | mk ok s' => cases ok <;> simp [hu]
      · simp
  rw [key c, key c']

theorem Route.serve_hit (lib : Lib) (order : TaskMap → TaskMap) (mainPkg : Bool)
    (route : Route) (s : TaskStore) (r : Request) (c : RedisCache) :
    ∀ key cached, route.cacheRead lib r = some key → c.Get key = some cached →
      (route.serve lib order mainPkg s c r).resp = jsonOK cached := by
  intro key cached hread hget
  cases route with
  | GetAll =>
    simp only [Route.cacheRead, Option.some.injEq] at hread
    subst hread
    simp only [Route.serve, TaskResource.GetAll, hget]
  | CreateOne => simp [Route.cacheRead] at hread
  | GetOne =>
    simp only [Route.cacheRead] at hread
    simp only [Route.serve, TaskResource.GetOne]
    split
    · rename_i x y idStr hsp
      simp only [hsp] at hread
      cases ha : lib.Atoi idStr with
      | none => simp [ha] at hread
      | some id =>
        simp only [ha, Option.map_some', Option.some.injEq] at hread
        subst hread
        simp only [hget]
    · rename_i hne
      split at hread
      · rename_i x y idStr hsp
        exact absurd hsp (hne x y idStr)
      · simp at hread
  | UpdateOne => simp [Route.cacheRead] at hread
  | DeleteOne => simp [Route.cacheRead] at hread

theorem Route.serve_status (lib : Lib) (order : TaskMap → TaskMap) (mainPkg : Bool)
    (route : Route) (s : TaskStore) (r : Request) (c c' : RedisCache)
    (hroute : route ≠ Route.GetOne) :
    (route.serve lib order mainPkg s c r).resp.status
      = (route.serve lib order mainPkg s c' r).resp.status := by
  have key : ∀ c : RedisCache, (route.serve lib order mainPkg s c r).resp.status
      = (route.serve lib order mainPkg s ⟨false, []⟩ r).resp.status := by
    intro c
    have h0 : ∀ key, (⟨false, []⟩ : RedisCache).Get key = none := fun key => rfl
    cases route with
    | GetAll =>
      simp only [Route.serve, TaskResource.GetAll, h0]
      cases hc : c.Get "all_tasks" <;> rfl
    | GetOne => exact absurd rfl hroute
    | CreateOne =>
      rw [(Route.serve_miss lib order mainPkg Route.CreateOne s r ⟨false, []⟩ c rfl
        (by intro key hk; simp [Route.cacheRead] at hk)).1]
    | UpdateOne =>
      rw [(Route.serve_miss lib order mainPkg Route.UpdateOne s r ⟨false, []⟩ c rfl
        (by intro key hk; simp [Route.cacheRead] at hk)).1]
    | DeleteOne =>
      rw [(Route.serve_miss lib order mainPkg Route.DeleteOne s r ⟨false, []⟩ c rfl
        (by intro key hk; simp [Route.cacheRead] at hk)).1]
  rw [key c, key c']

theorem Route.serve_no_read (lib : Lib) (order : TaskMap → TaskMap) (mainPkg : Bool)
    (route : Route) (s : TaskStore) (r : Request) (cf cw : RedisCache)
    (hoff : cf.online = false) (h1 : route ≠ Route.GetAll) (h2 : route ≠ Route.GetOne) :
    (route.serve lib order mainPkg s cf r).resp = (route.serve lib order mainPkg s cw r).resp := by
  refine (Route.serve_miss lib order mainPkg route s r cf cw hoff ?_).1
  intro key hk
  cases route with
  | GetAll => exact absurd rfl h1
  | GetOne => exact absurd rfl h2
  | CreateOne => simp [Route.cacheRead] at hk
  | UpdateOne => simp [Route.cacheRead] at hk
  | DeleteOne => simp [Route.cacheRead] at hk

theorem TaskResource.GetOne_present (lib : Lib) (s : TaskStore) (c : RedisCache) (r : Request)
    (a b idStr : String) (id : Int)
    (hp : Split r.path = [a, b, idStr]) (ha : lib.Atoi idStr = some id)
    (hkey : (s.Get id).2 = true) :
    (TaskResource.GetOne lib s c r).resp.status = 200
      ∧ (c.Get (cacheKey id) = none ∨ c.Get (cacheKey id) = some (lib.Marshal (s.Get id).1) →
          (TaskResource.GetOne lib s c r).resp = jsonOK (lib.Marshal (s.Get id).1)) := by
  cases hg : s.Get id with
  | mk t ok =>
    rw [hg] at hkey
    simp only at hkey
    subst hkey
    cases hc : c.Get (cacheKey id) with
    | none =>
      rw [TaskResource.GetOne_miss lib s c r a b idStr id hp ha hc, hg]
      exact ⟨rfl, fun _ => rfl⟩
    | some v =>
      simp only [TaskResource.GetOne, hp, ha, hc]
      refine ⟨rfl, ?_⟩
      rintro (h | h)
      · exact absurd h (by simp)
      · rw [Option.some.inj h]

/-! ## The claims about the handlers -/

/-- C7: with a working cache, whatever it holds, an `UpdateOne` for a stored
identifier with a payload that decodes answers 200 with an empty body, and a
`GetOne` for the same identifier right after it answers 200 with the
marshalled record made of the identifier and the payload's title and
completed flag, read from the store because `UpdateOne` deleted the key
`task:<id>`. -/
theorem UpdateOne_then_GetOne (lib : Lib) (s : TaskStore) (c : RedisCache)
    (ru rg : Request) (a b idStr a' b' idStr' : String) (id : Int) (payload : Task)
    (hon : c.online = true)
    (hkey : (s.Get id).2 = true)
    (hpu : Split ru.path = [a, b, idStr]) (hau : lib.Atoi idStr = some id)
    (hdec : lib.Decode ru.body = .ok payload)
    (hpg : Split rg.path = [a', b', idStr']) (hag : lib.Atoi idStr' = some id) :
    (TaskResource.UpdateOne lib s c ru).resp = ⟨200, [], ""⟩
      ∧ (TaskResource.UpdateOne lib s c ru).cache.online = true
      ∧ (TaskResource.UpdateOne lib s c ru).cache.Get (cacheKey id) = none
      ∧ (TaskResource.GetOne lib (TaskResource.UpdateOne lib s c ru).store
            (TaskResource.UpdateOne lib s c ru).cache rg).resp
          = jsonOK (lib.Marshal ⟨id, payload.Title, payload.Completed⟩) := by
  rw [TaskResource.UpdateOne_ok lib s c ru a b idStr id payload hpu hau hdec hkey]
  refine ⟨rfl, ?_, RedisCache.Get_Del c _, ?_⟩
  · simp [RedisCache.Del, hon]
  · rw [TaskResource.GetOne_miss lib _ _ rg a' b' idStr' id hpg hag (RedisCache.Get_Del c _)]
    simp only [TaskStore.Update_lookup_self s id payload hkey]

/-- C8, as amended: for an identifier that is not a key of the store and a
cache in which a `Get` of `task:<id>` returns no value (the key is absent or
the call fails), `GetOne` answers 404 and changes neither store nor cache. -/
theorem GetOne_not_found (lib : Lib) (s : TaskStore) (c : RedisCache) (r : Request)
    (a b idStr : String) (id : Int)
    (hp : Split r.path = [a, b, idStr]) (ha : lib.Atoi idStr = some id)
    (hkey : (s.Get id).2 = false)
    (hmiss : c.Get (cacheKey id) = none) :
    TaskResource.GetOne lib s c r = ⟨httpNotFound, s, c⟩
      ∧ (TaskResource.GetOne lib s c r).resp.status = 404 := by
  have h : TaskResource.GetOne lib s c r = ⟨httpNotFound, s, c⟩ := by
    rw [TaskResource.GetOne_miss lib s c r a b idStr id hp ha hmiss]
    rw [TaskStore.Get_of_lookup_none s id (TaskStore.Get_missing s id hkey)]
  rw [h]
  exact ⟨rfl, rfl⟩

/-- C9, as amended: on every route, store, request and pair of caches, a run
in which every cache call fails leaves the same store as a run with the other
cache; it writes the same status on every route but `GetOne`, and on `GetOne`
when the identifier is a key of the store; it writes the same response on
`CreateOne`, `UpdateOne` and `DeleteOne`, on any route when the other cache
returns no value under the key the route would answer from (`all_tasks` for
`GetAll`, `task:<id>` for `GetOne`), and on `GetOne` when the other cache
holds under `task:<id>` the marshalled record the store holds.  `GetAll`
ranges over the map in the same order in both runs. -/
theorem cache_failure_transparent (lib : Lib) (order : TaskMap → TaskMap) (mainPkg : Bool)
    (route : Route) (s : TaskStore) (r : Request) (cf cw : RedisCache)
    (hoff : cf.online = false) :
    (route.serve lib order mainPkg s cf r).store = (route.serve lib order mainPkg s cw r).store
      ∧ (route ≠ Route.GetOne →
          (route.serve lib order mainPkg s cf r).resp.status
            = (route.serve lib order mainPkg s cw r).resp.status)
      ∧ (route ≠ Route.GetAll → route ≠ Route.GetOne →
          (route.serve lib order mainPkg s cf r).resp
            = (route.serve lib order mainPkg s cw r).resp)
      ∧ ((∀ key, route.cacheRead lib r = some key → cw.Get key = none) →
          (route.serve lib order mainPkg s cf r).resp
            = (route.serve lib order mainPkg s cw r).resp)
      ∧ (∀ (a b idStr : String) (id : Int), route = Route.GetOne →
          Split r.path = [a, b, idStr] → lib.Atoi idStr = some id → (s.Get id).2 = true →
          (route.serve lib order mainPkg s cf r).resp.status
              = (route.serve lib order mainPkg s cw r).resp.status
            ∧ (cw.Get (cacheKey id) = some (lib.Marshal (s.Get id).1) →
                (route.serve lib order mainPkg s cf r).resp
                  = (route.serve lib order mainPkg s cw r).resp)) := by
  refine ⟨Route.serve_store lib order mainPkg route s r cf cw,
    Route.serve_status lib order mainPkg route s r cf cw,
    Route.serve_no_read lib order mainPkg route s r cf cw hoff,
    fun hmiss => (Route.serve_miss lib order mainPkg route s r cf cw hoff hmiss).1, ?_⟩
  intro a b idStr id hroute hp ha hkey
  subst hroute
  have hf := TaskResource.GetOne_present lib s cf r a b idStr id hp ha hkey
  have hw := TaskResource.GetOne_present lib s cw r a b idStr id hp ha hkey
  refine ⟨hf.1.trans hw.1.symm, ?_⟩
  intro hcoh
  exact (hf.2 (Or.inl (RedisCache.Get_offline cf _ hoff))).trans (hw.2 (Or.inr hcoh)).symm

/-! ## Evaluations at concrete inputs -/

/-- `Update_missing` on the one-task store at the absent identifier 5. -/
theorem Update_missing_witness :
    (sampleStore.Get 5).2 = false
      ∧ (sampleStore.Update 5 ⟨9, "tea", true⟩ = (false, sampleStore)
        ∧ (sampleStore.Update 5 ⟨9, "tea", true⟩).2.tasks = sampleStore.tasks
        ∧ (sampleStore.Update 5 ⟨9, "tea", true⟩).2.nextID = sampleStore.nextID
        ∧ ((sampleStore.Update 5 ⟨9, "tea", true⟩).2.Get 5).2 = false) :=
  ⟨by decide, Update_missing sampleStore 5 ⟨9, "tea", true⟩ (by decide)⟩

/-- `Update_present` on the one-task store at identifier 1, with a payload
whose own `ID` is 9. -/
theorem Update_present_witness :
    (sampleStore.Get 1).2 = true
      ∧ ((sampleStore.Update 1 ⟨9, "tea", true⟩).1 = true
        ∧ (sampleStore.Update 1 ⟨9, "tea", true⟩).2.Get 1 = (⟨1, "tea", true⟩, true)
        ∧ (∀ k, k ≠ 1 → (sampleStore.Update 1 ⟨9, "tea", true⟩).2.Get k = sampleStore.Get k)
        ∧ (∀ k, ((sampleStore.Update 1 ⟨9, "tea", true⟩).2.Get k).2 = (sampleStore.Get k).2)
        ∧ (sampleStore.Update 1 ⟨9, "tea", true⟩).2.nextID = sampleStore.nextID) :=
  ⟨by decide, Update_present sampleStore 1 ⟨9, "tea", true⟩ (by decide)⟩

/-- `Delete_twice` on the one-task store at identifier 1. -/
theorem Delete_twice_witness :
    (sampleStore.Get 1).2 = true
      ∧ ((sampleStore.Delete 1).1 = true
        ∧ (sampleStore.Delete 1).2.Delete 1 = (false, (sampleStore.Delete 1).2)
        ∧ (sampleStore.Delete 1).2.Get 1 = (Task.zero, false)) :=
  ⟨by decide, Delete_twice sampleStore 1 (by decide)⟩

/-- `UpdateOne_then_GetOne` on the one-task store with a working cache that
holds an outdated value under `task:1`. -/
theorem UpdateOne_then_GetOne_witness :
    sampleCache.online = true
      ∧ (sampleStore.Get 1).2 = true
      ∧ sampleCache.Get (cacheKey 1) = some "outdated"
      ∧ ((TaskResource.UpdateOne sampleLib sampleStore sampleCache ⟨"/tasks/1", "tea!"⟩).resp
            = ⟨200, [], ""⟩
        ∧ (TaskResource.UpdateOne sampleLib sampleStore sampleCache
              ⟨"/tasks/1", "tea!"⟩).cache.online = true
        ∧ (TaskResource.UpdateOne sampleLib sampleStore sampleCache
              ⟨"/tasks/1", "tea!"⟩).cache.Get (cacheKey 1) = none
        ∧ (TaskResource.GetOne sampleLib
              (TaskResource.UpdateOne sampleLib sampleStore sampleCache ⟨"/tasks/1", "tea!"⟩).store
              (TaskResource.UpdateOne sampleLib sampleStore sampleCache ⟨"/tasks/1", "tea!"⟩).cache
              ⟨"/tasks/1", ""⟩).resp
            = jsonOK (sampleLib.Marshal ⟨1, "tea", true⟩)) :=
  ⟨by decide, by decide, by decide,
    UpdateOne_then_GetOne sampleLib sampleStore sampleCache ⟨"/tasks/1", "tea!"⟩
      ⟨"/tasks/1", ""⟩ "" "tasks" "1" "" "tasks" "1" 1 ⟨0, "tea", true⟩
      (by decide) (by decide) (by decide) (by decide) rfl (by decide) (by decide)⟩

/-- C8 fails as stated: on a fresh store, which has never held identifier
999, a working cache that holds a value under `task:999` makes `GetOne`
answer 200 with that value instead of 404. -/
theorem GetOne_cached_without_record :
    (NewTaskStore.Get 999).2 = false
      ∧ (TaskResource.GetOne sampleLib NewTaskStore ⟨true, [("task:999", ⟨"ghost", 3600⟩)]⟩
            ⟨"/tasks/999", ""⟩).resp = jsonOK "ghost"
      ∧ (TaskResource.GetOne sampleLib NewTaskStore ⟨true, [("task:999", ⟨"ghost", 3600⟩)]⟩
            ⟨"/tasks/999", ""⟩).resp.status ≠ 404 := by
  decide

/-- `GetOne_not_found` on the one-task store for identifier 999, with a
working cache that holds a value under another key. -/
theorem GetOne_not_found_witness :
    Split "/tasks/999" = ["", "tasks", "999"] ∧ sampleLib.Atoi "999" = some 999
      ∧ (sampleStore.Get 999).2 = false ∧ sampleCache.Get (cacheKey 999) = none
      ∧ (TaskResource.GetOne sampleLib sampleStore sampleCache ⟨"/tasks/999", ""⟩
            = ⟨httpNotFound, sampleStore, sampleCache⟩
        ∧ (TaskResource.GetOne sampleLib sampleStore sampleCache
              ⟨"/tasks/999", ""⟩).resp.status = 404) :=
  ⟨by decide, by decide, by decide, by decide,
    GetOne_not_found sampleLib sampleStore sampleCache ⟨"/tasks/999", ""⟩ "" "tasks" "999" 999
      (by decide) (by decide) (by decide) (by decide)⟩

/-- C9 fails as stated: after `GET /tasks` and then `POST /tasks` on a fresh
store with a working cache, the store holds task 1 and the cache still holds
the empty list under `all_tasks`; a further `GET /tasks` answers with that
cached `[]` when the cache works and with the list read from the store when
every cache call fails. -/
theorem GetAll_differs_when_cache_fails :
    listedThenCreated.store = ⟨[(1, ⟨1, "milk", false⟩)], 2⟩
      ∧ listedThenCreated.cache = ⟨true, [("all_tasks", ⟨"[]", 300⟩)]⟩
      ∧ (Route.serve sampleLib id false Route.GetAll listedThenCreated.store
            listedThenCreated.cache ⟨"/tasks", ""⟩).resp = jsonOK "[]"
      ∧ (Route.serve sampleLib id false Route.GetAll listedThenCreated.store
            ⟨false, listedThenCreated.cache.entries⟩ ⟨"/tasks", ""⟩).resp
          = jsonOK "[\x7b\"id\":1,\"title\":\"milk\",\"completed\":false\x7d]\n"
      ∧ (Route.serve sampleLib id false Route.GetAll listedThenCreated.store
            ⟨false, listedThenCreated.cache.entries⟩ ⟨"/tasks", ""⟩).resp.body
          ≠ (Route.serve sampleLib id false Route.GetAll listedThenCreated.store
            listedThenCreated.cache ⟨"/tasks", ""⟩).resp.body
      ∧ (Route.serve sampleLib id false Route.GetAll listedThenCreated.store
            ⟨false, listedThenCreated.cache.entries⟩ ⟨"/tasks", ""⟩).resp.body
          ≠ (Route.serve sampleLib id false Route.GetAll listedThenCreated.store
            listedThenCreated.cache ⟨"/tasks", ""⟩).resp.body ++ "\n" := by
  decide

/-- `cache_failure_transparent` for `GET /tasks/1` on the one-task store: a
failing cache against a working cache that holds the marshalled task 1 under
`task:1`, and against a working cache that holds nothing under that key. -/
theorem cache_failure_transparent_witness :
    (⟨false, sampleCache.entries⟩ : RedisCache).online = false
      ∧ Split "/tasks/1" = ["", "tasks", "1"] ∧ sampleLib.Atoi "1" = some 1
      ∧ (sampleStore.Get 1).2 = true
      ∧ coherentCache.Get (cacheKey 1) = some (sampleLib.Marshal (sampleStore.Get 1).1)
      ∧ (Route.serve sampleLib id false Route.GetOne sampleStore
              ⟨false, sampleCache.entries⟩ ⟨"/tasks/1", ""⟩).store
            = (Route.serve sampleLib id false Route.GetOne sampleStore
              coherentCache ⟨"/tasks/1", ""⟩).store
      ∧ (Route.serve sampleLib id false Route.GetOne sampleStore
              ⟨false, sampleCache.entries⟩ ⟨"/tasks/1", ""⟩).resp
            = (Route.serve sampleLib id false Route.GetOne sampleStore
              coherentCache ⟨"/tasks/1", ""⟩).resp
      ∧ (Route.serve sampleLib id false Route.GetOne sampleStore
              ⟨false, sampleCache.entries⟩ ⟨"/tasks/1", ""⟩).resp
            = (Route.serve sampleLib id false Route.GetOne sampleStore
              ⟨true, [("all_tasks", ⟨"[]", 300⟩)]⟩ ⟨"/tasks/1", ""⟩).resp :=
  have hread : Route.cacheRead sampleLib Route.GetOne ⟨"/tasks/1", ""⟩ = some "task:1" := by
    decide
  have hmiss : ∀ key, Route.cacheRead sampleLib Route.GetOne ⟨"/tasks/1", ""⟩ = some key →
      (⟨true, [("all_tasks", ⟨"[]", 300⟩)]⟩ : RedisCache).Get key = none := by
    intro key hk
    rw [hread] at hk
    cases hk
    decide
  have h := cache_failure_transparent sampleLib id false Route.GetOne sampleStore
    ⟨"/tasks/1", ""⟩ ⟨false, sampleCache.entries⟩ coherentCache rfl
  have h' := cache_failure_transparent sampleLib id false Route.GetOne sampleStore
    ⟨"/tasks/1", ""⟩ ⟨false, sampleCache.entries⟩ ⟨true, [("all_tasks", ⟨"[]", 300⟩)]⟩ rfl
  ⟨rfl, by decide, by decide, by decide, by decide, h.1,
    (h.2.2.2.2 "" "tasks" "1" 1 rfl (by decide) (by decide) (by decide)).2 (by decide),
    h'.2.2.2.1 hmiss⟩

/-- The answers of `GetAll` before and after it fills the cache: on the
one-task store with an empty working cache the first `GET /tasks` answers
with the encoded list, newline included, and caches the marshalled list; the
second answers with the cached text, which lacks the newline. -/
theorem GetAll_cached_without_newline :
    (TaskResource.GetAll sampleLib id sampleStore ⟨true, []⟩ ⟨"/tasks", ""⟩).resp.body
        = "[\x7b\"id\":1,\"title\":\"milk\",\"completed\":false\x7d]\n"
      ∧ (TaskResource.GetAll sampleLib id sampleStore
          (TaskResource.GetAll sampleLib id sampleStore ⟨true, []⟩ ⟨"/tasks", ""⟩).cache
          ⟨"/tasks", ""⟩).resp.body
        = "[\x7b\"id\":1,\"title\":\"milk\",\"completed\":false\x7d]" := by
  decide

/-- C1 fails as stated: the `Add` calls number `2 ^ 63 - 1` and `2 ^ 63` on a
fresh store return `maxInt` and then `minInt`, so the identifiers of `2 ^ 63`
calls are not increasing; after `2 ^ 63 - 1` calls the counter is `minInt`,
below the identifier 1 issued first; and call number `2 ^ 64 + 1` returns 1
again. -/
theorem issued_wraps_around :
    issued NewTaskStore (manyAdds (2 ^ 63))
        = issued NewTaskStore (manyAdds (2 ^ 63 - 2)) ++ [maxInt, minInt]
      ∧ ¬ (issued NewTaskStore (manyAdds (2 ^ 63))).Pairwise (fun a b => a < b)
      ∧ (run NewTaskStore (manyAdds (2 ^ 63 - 1))).nextID = minInt
      ∧ ¬ (∀ id ∈ issued NewTaskStore (manyAdds (2 ^ 63 - 1)),
            id < (run NewTaskStore (manyAdds (2 ^ 63 - 1))).nextID)
      ∧ ¬ (issued NewTaskStore (manyAdds (2 ^ 64 + 1))).Nodup := by
  have hsplit : manyAdds (2 ^ 63) = manyAdds (2 ^ 63 - 2) ++ manyAdds 2 := by
    have e : (2 : Nat) ^ 63 = 2 ^ 63 - 2 + 2 := by norm_num
    unfold manyAdds
    rw [← List.replicate_add, ← e]
  have hlast : issued NewTaskStore (manyAdds (2 ^ 63))
      = issued NewTaskStore (manyAdds (2 ^ 63 - 2)) ++ [maxInt, minInt] := by
    have htail : issued (run NewTaskStore (manyAdds (2 ^ 63 - 2))) (manyAdds 2)
        = [maxInt, minInt] := by
      rw [issued_eq _ _ (by rw [nextID_run _ _ NewTaskStore_nextID, wrapInt_wrapInt]),
        nextID_run _ _ NewTaskStore_nextID, addCount_manyAdds, addCount_manyAdds]
      have h1 : NewTaskStore.nextID = 1 := rfl
      norm_num [h1, List.range_succ, wrapInt, maxInt, minInt]
    rw [hsplit, issued_append, htail]
  have hone : (1 : Int) ∈ issued NewTaskStore (manyAdds (2 ^ 63 - 1)) := by
    rw [issued_fresh, addCount_manyAdds, List.mem_map]
    exact ⟨0, List.mem_range.mpr (by norm_num), by decide⟩
  have hnext : (run NewTaskStore (manyAdds (2 ^ 63 - 1))).nextID = minInt := by
    rw [nextID_run _ _ NewTaskStore_nextID, addCount_manyAdds]
    decide
  refine ⟨hlast, ?_, hnext, ?_, ?_⟩
  · rw [hlast, List.pairwise_append]
    intro h
    have := h.2.1
    revert this
    decide
  · intro h
    have := h 1 hone
    rw [hnext] at this
    revert this
    decide
  · rw [issued_fresh, addCount_manyAdds]
    intro h
    have hinj := List.inj_on_of_nodup_map h (List.mem_range.mpr (by norm_num : 0 < 2 ^ 64 + 1))
      (List.mem_range.mpr (by norm_num : 2 ^ 64 < 2 ^ 64 + 1)) (by decide)
    revert hinj
    norm_num

/-- `issued_strictly_increasing` on two `Add` calls with a `Delete` of the
first record in between. -/
theorem issued_strictly_increasing_witness :
    issued NewTaskStore [Call.add ⟨7, "milk", false⟩, Call.delete 1, Call.add ⟨7, "tea", true⟩]
        = [1, 2]
      ∧ (issued NewTaskStore
          [Call.add ⟨7, "milk", false⟩, Call.delete 1, Call.add ⟨7, "tea", true⟩]).Pairwise
            (fun a b => a < b)
      ∧ (issued NewTaskStore
          [Call.add ⟨7, "milk", false⟩, Call.delete 1, Call.add ⟨7, "tea", true⟩]).Nodup
      ∧ (∀ id ∈ issued NewTaskStore
            [Call.add ⟨7, "milk", false⟩, Call.delete 1, Call.add ⟨7, "tea", true⟩],
          id < (run NewTaskStore
            [Call.add ⟨7, "milk", false⟩, Call.delete 1, Call.add ⟨7, "tea", true⟩]).nextID) :=
  ⟨by decide,
    (issued_strictly_increasing _).1 (by decide),
    (issued_strictly_increasing _).2.1 (by decide),
    (issued_strictly_increasing _).2.2 (by decide)⟩

/-- C2 fails as stated: on a store whose counter is `maxInt`, `Add` leaves the
counter at `minInt`, not at `maxInt + 1`. -/
theorem Add_wraps_at_maxInt :
    (TaskStore.Add ⟨[], maxInt⟩ ⟨0, "milk", false⟩).1 = maxInt
      ∧ (TaskStore.Add ⟨[], maxInt⟩ ⟨0, "milk", false⟩).2.nextID = minInt
      ∧ (TaskStore.Add ⟨[], maxInt⟩ ⟨0, "milk", false⟩).2.nextID ≠ maxInt + 1 := by
  decide

/-- `Add_spec` on the one-task store, whose counter is 2, with a task whose
own `ID` is 7. -/
theorem Add_spec_witness :
    minInt ≤ sampleStore.nextID ∧ sampleStore.nextID < maxInt
      ∧ (sampleStore.Add ⟨7, "tea", true⟩).1 = 2
      ∧ (sampleStore.Add ⟨7, "tea", true⟩).2.nextID = sampleStore.nextID + 1
      ∧ (sampleStore.Add ⟨7, "tea", true⟩).2.Get 2 = (⟨2, "tea", true⟩, true) :=
  ⟨by decide, by decide, (Add_spec sampleStore ⟨7, "tea", true⟩).1,
    (Add_spec sampleStore ⟨7, "tea", true⟩).2.1 (by decide) (by decide),
    (Add_spec sampleStore ⟨7, "tea", true⟩).2.2.2.2⟩

end GoHw17
